import Mathlib

/-!
# CRD generator: root search, domain lookup, file naming and aggregation

A shallow embedding of the two orchestration paths of the repository
(`pkg/generate/crds/gen.go` and `pkg/crd/generator/generator.go`).

Go `string`s are Lean `String`s (valid UTF-8 text).  The functions of the Go
standard library that the code calls (`strings.ToLower`, `strings.Join`,
`strings.Split`, `strings.HasPrefix`, `strings.Replace`, `path.Clean`,
`path.Split`, `path.Dir`, `path.Join`) are written out as executable
definitions following the library's documented behaviour.  The operating
system (`os.Stat`, `os.Getenv`, `filepath.Abs`, `os.Open`) is an explicit
environment value.  A `for { ... }` loop is a function with a fuel argument;
`none` means that the loop has not finished within the fuel.
-/

namespace CRDGen

/-! ## Go standard library: `strings` -/

/-- Go `unicode.ToLower`: ASCII letters are shifted by `'a' - 'A'`, other ASCII
runes are unchanged, and a rune above ASCII is looked up in the Unicode case
tables, which are data of the standard library and taken as `tbl`. -/
def unicodeToLower (tbl : Char → Char) (r : Char) : Char :=
  if r.toNat ≤ 127 then
    if 'A' ≤ r ∧ r ≤ 'Z' then Char.ofNat (r.toNat + ('a'.toNat - 'A'.toNat)) else r
  else tbl r

/-- Go `strings.ToLower`: every rune mapped to its lower case. -/
def stringsToLower (tbl : Char → Char) (s : String) : String :=
  ⟨s.data.map (unicodeToLower tbl)⟩

/-- Characters of `strings.Join(elems, sep)`. -/
def joinChars (sep : List Char) : List (List Char) → List Char
  | [] => []
  | [e] => e
  | e :: e2 :: es => e ++ sep ++ joinChars sep (e2 :: es)

/-- Go `strings.Join`. -/
def stringsJoin (elems : List String) (sep : String) : String :=
  ⟨joinChars sep.data (elems.map String.data)⟩

/-- Splitting a character list at every occurrence of the one-character
separator `sep`; the result is never empty. -/
def splitChars (sep : Char) : List Char → List (List Char)
  | [] => [[]]
  | c :: cs =>
    if c = sep then [] :: splitChars sep cs
    else
      match splitChars sep cs with
      | [] => [[c]]
      | e :: es => (c :: e) :: es

/-- Go `strings.Split(s, sep)` for a one-character separator. -/
def stringsSplit (s : String) (sep : Char) : List String :=
  (splitChars sep s.data).map String.mk

/-- Go `strings.HasPrefix`. -/
def stringsHasPrefix (s pre : String) : Bool :=
  pre.data.isPrefixOf s.data

/-- Go `strings.Replace(s, old, new, -1)` for a one-character `old`: every
occurrence of `old` is replaced by `new`. -/
def stringsReplaceAll (s : String) (old : Char) (new : String) : String :=
  ⟨s.data.foldr (fun c acc => if c = old then new.data ++ acc else c :: acc) []⟩

/-! ## Go standard library: `path` -/

/-- The element loop of Go `path.Clean`, run over the `/`-separated elements of
the path.  `out` holds the elements written so far and `dotdot` counts the
leading elements of `out` that a later `..` may not remove (the `dotdot`
index of the library code, counted in elements). -/
def cleanLoop (rooted : Bool) : List (List Char) → List (List Char) → Nat → List (List Char)
  | [], out, _ => out
  | e :: es, out, dotdot =>
    if e = [] then cleanLoop rooted es out dotdot
    else if e = ['.'] then cleanLoop rooted es out dotdot
    else if e = ['.', '.'] then
      if out.length > dotdot then cleanLoop rooted es out.dropLast dotdot
      else if !rooted then cleanLoop rooted es (out ++ [e]) (out.length + 1)
      else cleanLoop rooted es out dotdot
    else cleanLoop rooted es (out ++ [e]) dotdot

/-- Characters of Go `path.Clean(path)`: the shortest equivalent path. -/
def cleanChars (path : List Char) : List Char :=
  if path = [] then ['.']
  else
    let rooted : Bool := path.head? = some '/'
    let out := cleanLoop rooted (splitChars '/' path) [] 0
    let s := (if rooted then ['/'] else []) ++ joinChars ['/'] out
    if s = [] then ['.'] else s

/-- Go `path.Clean`. -/
def pathClean (path : String) : String := ⟨cleanChars path.data⟩

/-- First result of Go `path.Split`: the path up to and including its last
slash (empty when it has no slash). -/
def splitDirChars (path : List Char) : List Char :=
  (path.reverse.dropWhile (fun c => c ≠ '/')).reverse

/-- Go `path.Dir`: `Clean` of the directory part given by `Split`. -/
def pathDir (path : String) : String := ⟨cleanChars (splitDirChars path.data)⟩

/-- Go `path.Join`: leading empty elements are skipped, the others are joined
with slashes and the result is cleaned; no non-empty element gives `""`. -/
def pathJoin (elem : List String) : String :=
  match elem.dropWhile (fun e => e = "") with
  | [] => ""
  | e :: es => pathClean (stringsJoin (e :: es) "/")

/-! ## API resources -/

/-- Modelled from the spec: `extensionsv1beta1.CustomResourceDefinition` is
declared outside the repository; the code reads and writes its `Namespace`
field only, so all its other fields together are one value `rest`. -/
structure CustomResourceDefinition (σ : Type) where
  Namespace : String
  rest : σ
  deriving DecidableEq, Repr

/-- Modelled from the spec: `codegen.APIResource` (declared outside `src/`),
"{group, version, kind, CRD schema document}". -/
structure APIResource (σ : Type) where
  Group : String
  Version : String
  Kind : String
  CRD : CustomResourceDefinition σ
  deriving DecidableEq, Repr

/-- `getCRDFileName` (gen.go:107-110 and generator.go:166-169, same text). -/
def getCRDFileName {σ : Type} (tbl : Char → Char) (resource : APIResource σ) : String :=
  let elems := [resource.Group, resource.Version, stringsToLower tbl resource.Kind]
  stringsJoin elems "_" ++ ".yaml"

/-- Modelled from the spec: an API version of the parser's result (declared
outside `src/`), "each version contains resources".  The list is the sequence
in which `range v.Resources` yields the resources. -/
structure APIVersion (σ : Type) where
  Resources : List (APIResource σ)

/-- Modelled from the spec: an API group of the parser's result (declared
outside `src/`), "each APIGroup contains versions", in `range` order. -/
structure APIGroup (σ : Type) where
  Versions : List (APIVersion σ)

/-- Modelled from the spec: the `APIs` field of `parse.APIs` (declared outside
`src/`), "groups []APIGroup", in `range` order. -/
structure APIsData (σ : Type) where
  Groups : List (APIGroup σ)

/-- Modelled from the spec: `parse.APIs` (declared outside `src/`); the code
reads `p.APIs.Groups` only. -/
structure ParseAPIs (σ : Type) where
  APIs : APIsData σ

/-! ## Go maps with string keys -/

/-- A Go `map[string]V`: its entries, every key at most once. -/
abbrev GoMap (V : Type) := List (String × V)

/-- The statement `m[k] = v`: the entry of `k` is replaced when there is one,
otherwise a new entry is added. -/
def GoMap.set {V : Type} : GoMap V → String → V → GoMap V
  | [], k, v => [(k, v)]
  | (k', v') :: m, k, v => if k' = k then (k, v) :: m else (k', v') :: GoMap.set m k v

/-- The expression `m[k]` with its presence flag. -/
def GoMap.get? {V : Type} (m : GoMap V) (k : String) : Option V :=
  (m.find? (fun e => e.1 = k)).map Prod.snd

/-- The keys of the map. -/
def GoMap.keys {V : Type} (m : GoMap V) : List String := m.map Prod.fst

/-! ## Process results -/

/-- A computation that may end the process through `log.Fatal` / `glog.Fatalf`
instead of returning. -/
inductive Run (α : Type) where
  | done (a : α)
  | fatal (msg : String)
  deriving DecidableEq, Repr

/-! ## Operating system -/

/-- What the code looks at in the error of `os.Stat`: `nil`, an error for which
`os.IsNotExist` holds, or another error. -/
inductive StatResult where
  | found
  | notExist
  | otherError
  deriving DecidableEq, Repr

/-- `pathHasProjectFile` (gen.go:99-105 and generator.go:146-152, same text):
false exactly when `os.Stat` of `<filePath>/PROJECT` reports not-exist. -/
def pathHasProjectFile (stat : String → StatResult) (filePath : String) : Bool :=
  if stat (pathJoin [filePath, "PROJECT"]) = StatResult.notExist then false else true

/-! ## `pkg/generate/crds/gen.go` -/

/-- The `CRDGenerator` struct (gen.go:33-37). -/
structure CRDGenerator where
  RootPath : String
  Namespace : String
  SkipMapValidation : Bool
  deriving DecidableEq, Repr

/-- How a block of statements of a method with receiver `γ` ends: control goes
on to the next statement, or the method returns a non-nil error.  Both carry
the receiver as the block left it (the receiver is a pointer). -/
inductive Stage (γ : Type) where
  | proceed (c : γ)
  | returned (err : String) (c : γ)
  deriving DecidableEq, Repr

/-- The search loop of `GenerateCRDs` (gen.go:57-67). -/
def CRDGenerator.searchLoop (stat : String → StatResult) :
    Nat → CRDGenerator → Option (Stage CRDGenerator)
  | 0, _ => none
  | fuel + 1, c =>
    if pathHasProjectFile stat c.RootPath then some (Stage.proceed c)
    else if c.RootPath = "/" then
      some (Stage.returned "failed to find working directory that contains PROJECT" c)
    else CRDGenerator.searchLoop stat fuel { c with RootPath := pathDir c.RootPath }

/-- The root resolution of `GenerateCRDs` (gen.go:46-68): the statements
between the creation of the parser builder and the first use of `RootPath`.
`abs` is the result of `filepath.Abs(".")`. -/
def CRDGenerator.resolveRoot (stat : String → StatResult) (abs : Except String String)
    (fuel : Nat) (c : CRDGenerator) : Option (Stage CRDGenerator) :=
  if c.RootPath.length > 0 ∧ pathHasProjectFile stat c.RootPath = false then
    some (Stage.returned "Input path must be a diretory containing PROJECT" c)
  else if c.RootPath.length = 0 then
    match abs with
    | Except.error e => some (Stage.returned e { c with RootPath := "" })
    | Except.ok wd => CRDGenerator.searchLoop stat fuel { c with RootPath := wd }
  else some (Stage.proceed c)

/-- The first loop of `getCrds` (gen.go:113-125 and generator.go:172-184, same
text): the CRD of every resource, with the namespace override, stored under the
resource's file name. -/
def collectCrds {σ : Type} (tbl : Char → Char) (Namespace : String) (p : ParseAPIs σ) :
    GoMap (CustomResourceDefinition σ) :=
  p.APIs.Groups.foldl (fun crds g =>
    g.Versions.foldl (fun crds v =>
      v.Resources.foldl (fun crds r =>
        let crd := r.CRD
        let crd := if Namespace.length > 0 then { crd with Namespace := Namespace } else crd
        let fileName := getCRDFileName tbl r
        GoMap.set crds fileName crd) crds) crds) []

/-- The second loop of `getCrds` (gen.go:127-134 and generator.go:186-193):
every collected CRD is serialized with `yaml.Marshal`, taken as `marshal`; an
error of the serializer ends the process. -/
def marshalCrds {σ : Type} (marshal : CustomResourceDefinition σ → Except String String) :
    List (String × CustomResourceDefinition σ) → GoMap String → Run (GoMap String)
  | [], result => Run.done result
  | (file, crd) :: rest, result =>
    match marshal crd with
    | Except.error err => Run.fatal ("Error: " ++ err)
    | Except.ok s => marshalCrds marshal rest (GoMap.set result file s)

/-- The method `(*CRDGenerator).getCrds` (gen.go:112-137): both loops. -/
def CRDGenerator.getCrds {σ : Type} (tbl : Char → Char)
    (marshal : CustomResourceDefinition σ → Except String String)
    (c : CRDGenerator) (p : ParseAPIs σ) : Run (GoMap String) :=
  marshalCrds marshal (collectCrds tbl c.Namespace p) []

/-! ## `pkg/crd/generator/generator.go` -/

/-- The `Generator` struct (generator.go:39-44). -/
structure Generator where
  RootPath : String
  Domain : String
  Namespace : String
  SkipMapValidation : Bool
  deriving DecidableEq, Repr

/-- The operating system as `ValidateAndInitFields` sees it. -/
structure Env where
  /-- The error class of `os.Stat(path)`. -/
  stat : String → StatResult
  /-- The result of `filepath.Abs(".")`. -/
  abs : Except String String
  /-- The value of `os.Getenv("GOPATH")`. -/
  gopath : String
  /-- The result of `os.Open("./PROJECT")`: the error text, or the content of
  that file of the current working directory. -/
  projectFile : Except String String

/-- `isGoPath` (generator.go:154-164). -/
def isGoPath (gopath : String) (filePath : String) : Bool :=
  let goPaths := stringsSplit gopath ':'
  goPaths.any (fun path => filePath = path)

/-- The scanner loop of `getDomainFromProject` (generator.go:207-216), started
with `domain` still the empty string. -/
def scanDomain : List String → Run String
  | [] => Run.done ""
  | text :: rest =>
    if stringsHasPrefix text "domain:" then
      let domainInfo := stringsSplit text ':'
      match domainInfo with
      | [_, info] => Run.done (stringsReplaceAll info ' ' "")
      | _ => Run.fatal ("Unexpected domain info: " ++ text)
    else scanDomain rest

/-- The lines of a file as `bufio.ScanLines` cuts them: the pieces between the
newlines, where an empty piece after the last newline is no line. -/
def fileLines (content : String) : List String :=
  let pieces := splitChars '\n' content.data
  (if pieces.getLast? = some [] then pieces.dropLast else pieces).map String.mk

/-- The longest line, in bytes, that a `bufio.Scanner` with its default buffer
yields: `bufio.MaxScanTokenSize` less the byte of the newline. -/
def maxLineBytes : Nat := 64 * 1024 - 1

/-- The `dropCR` of package `bufio`: one trailing carriage return is dropped. -/
def dropCR (line : String) : String :=
  if line.data.getLast? = some '\r' then ⟨line.data.dropLast⟩ else line

/-- The texts that `scanner.Text()` gives in the successive rounds of
`for scanner.Scan()`: the lines without their trailing carriage return, up to
the first line of more than `maxLineBytes` bytes.  There `Scan` stops with
`bufio.ErrTooLong`, an error that the code never reads. -/
def scannerTexts : List String → List String
  | [] => []
  | line :: rest =>
    if line.utf8ByteSize > maxLineBytes then [] else dropCR line :: scannerTexts rest

/-- `getDomainFromProject` (generator.go:198-219). -/
def getDomainFromProject (projectFile : Except String String) : Run String :=
  match projectFile with
  | Except.error err => Run.fatal err
  | Except.ok content => scanDomain (scannerTexts (fileLines content))

/-- The walk loop of `ValidateAndInitFields` (generator.go:59-69). -/
def Generator.walkLoop (env : Env) : Nat → Generator → Option (Stage Generator)
  | 0, _ => none
  | fuel + 1, c =>
    if pathHasProjectFile env.stat c.RootPath then some (Stage.proceed c)
    else if isGoPath env.gopath c.RootPath then
      some (Stage.returned "failed to find working directory that contains PROJECT" c)
    else Generator.walkLoop env fuel { c with RootPath := pathDir c.RootPath }

/-- Go `fmt.Errorf` as far as the code uses it: an error value with its text. -/
def fmtErrorf (msg : String) : Option String := some msg

/-- The statements of `ValidateAndInitFields` after the walk
(generator.go:72-87).  The two values built by `fmt.Errorf` are dropped, as in
the source, which has no `return` in front of them. -/
def Generator.afterWalk (env : Env) (c : Generator) : Run (Option String × Generator) :=
  let apisPath := pathJoin [c.RootPath, "pkg/apis"]
  let _ := if env.stat apisPath ≠ StatResult.found then
      fmtErrorf ("error validating apis path " ++ apisPath) else none
  if c.Domain.length = 0 then
    let projectFile := pathJoin [c.RootPath, "PROJECT"]
    let _ := if env.stat projectFile ≠ StatResult.found then
        fmtErrorf "domain not specified and PROJECT file not found" else none
    match getDomainFromProject env.projectFile with
    | Run.fatal msg => Run.fatal msg
    | Run.done domain => Run.done (none, { c with Domain := domain })
  else Run.done (none, c)

/-- `(*Generator).ValidateAndInitFields` (generator.go:46-88).  The result is the
returned error (`none` for `nil`) with the receiver after the call, or the end
of the process; `none` when the walk loop has not finished within `fuel`. -/
def Generator.ValidateAndInitFields (env : Env) (fuel : Nat) (c : Generator) :
    Option (Run (Option String × Generator)) :=
  let first : Stage Generator :=
    if c.RootPath.length = 0 then
      match env.abs with
      | Except.error e => Stage.returned e { c with RootPath := "" }
      | Except.ok wd => Stage.proceed { c with RootPath := wd }
    else Stage.proceed c
  match first with
  | Stage.returned e c => some (Run.done (some e, c))
  | Stage.proceed c =>
    let walked : Option (Stage Generator) :=
      if c.Domain.length = 0 then Generator.walkLoop env fuel c else some (Stage.proceed c)
    match walked with
    | none => none
    | some (Stage.returned e c) => some (Run.done (some e, c))
    | some (Stage.proceed c) => some (Generator.afterWalk env c)

/-- The method `(*Generator).getCrds` (generator.go:171-196): the same two loops
as in gen.go. -/
def Generator.getCrds {σ : Type} (tbl : Char → Char)
    (marshal : CustomResourceDefinition σ → Except String String)
    (c : Generator) (p : ParseAPIs σ) : Run (GoMap String) :=
  marshalCrds marshal (collectCrds tbl c.Namespace p) []

/-! ## Absolute cleaned paths -/

/-- A proper path element: not empty, without a slash, and neither `.` nor
`..`. -/
def IsElem (e : List Char) : Prop :=
  e ≠ [] ∧ '/' ∉ e ∧ e ≠ ['.'] ∧ e ≠ ['.', '.']

instance : DecidablePred IsElem := fun e => by unfold IsElem; infer_instance

/-- Characters of the absolute path with the given elements: `/` alone for no
element, otherwise `/e1/e2/.../en`. -/
def absChars (elems : List (List Char)) : List Char := '/' :: joinChars ['/'] elems

/-- The absolute path with the given elements. -/
def absPath (elems : List (List Char)) : String := ⟨absChars elems⟩

/-- The non-empty `/`-separated elements of a path. -/
def pathElems (path : String) : List (List Char) :=
  (splitChars '/' path.data).filter (fun e => e ≠ [])

/-- The depth of a path: the number of its elements (`/` has depth 0). -/
def pathDepth (path : String) : Nat := (pathElems path).length

/-- An absolute, cleaned path: it starts with a slash and `path.Clean` leaves
it as it is.  Such is every result of `filepath.Abs`. -/
def IsAbsClean (path : String) : Prop :=
  path.data.head? = some '/' ∧ pathClean path = path

instance : DecidablePred IsAbsClean := fun p => by unfold IsAbsClean; infer_instance

/-- The ancestor chain of a path, nearest first: the path itself, then the
paths of ever shorter prefixes of its elements, down to `/`. -/
def ancestorChain (path : String) : List String :=
  (List.range (pathDepth path + 1)).map
    (fun k => absPath ((pathElems path).take (pathDepth path - k)))

/-! ## Derived notions used in the statements -/

/-- The ancestor chain written on the elements of the path. -/
def chainOf (elems : List (List Char)) : List String :=
  (List.range (elems.length + 1)).map (fun k => absPath (elems.take (elems.length - k)))

/-- What the search loop returns on the chain of an absolute cleaned path. -/
def searchResult (stat : String → StatResult) (c : CRDGenerator) (chain : List String) :
    Stage CRDGenerator :=
  match chain.find? (fun d => pathHasProjectFile stat d) with
  | some d => Stage.proceed { c with RootPath := d }
  | none =>
    Stage.returned "failed to find working directory that contains PROJECT"
      { c with RootPath := "/" }

/-- The text of a line after its first colon. -/
def afterFirstColon (text : String) : List Char :=
  (text.data.dropWhile (fun c => c ≠ ':')).drop 1

/-- The domain as the specification words it: the text after the colon with
all whitespace removed. -/
def domainAllWhitespaceRemoved (text : String) : String :=
  ⟨(afterFirstColon text).filter (fun c => !c.isWhitespace)⟩

/-- The domain with the space characters removed and other whitespace kept. -/
def domainSpacesRemoved (text : String) : String :=
  ⟨(afterFirstColon text).filter (fun c => c ≠ ' ')⟩

/-- All resources of the parser's result in traversal order: group, then
version, then resource. -/
def allResources {σ : Type} (p : ParseAPIs σ) : List (APIResource σ) :=
  p.APIs.Groups.flatMap (fun g => g.Versions.flatMap (fun v => v.Resources))

/-- A CRD with only its namespace field changed: the override when there is
one, otherwise the namespace it had. -/
def overrideNamespace {σ : Type} (ns : String) (crd : CustomResourceDefinition σ) :
    CustomResourceDefinition σ :=
  { Namespace := if ns = "" then crd.Namespace else ns, rest := crd.rest }

/-- The last resource in traversal order that has the given file name. -/
def lastWithFileName {σ : Type} (tbl : Char → Char) (k : String)
    (rs : List (APIResource σ)) : Option (APIResource σ) :=
  rs.reverse.find? (fun r => getCRDFileName tbl r = k)

/-- The file name and the CRD that the first loop of `getCrds` stores for each
resource of a list. -/
def entriesOf {σ : Type} (tbl : Char → Char) (ns : String) (rs : List (APIResource σ)) :
    List (String × CustomResourceDefinition σ) :=
  rs.map (fun r => (getCRDFileName tbl r, overrideNamespace ns r.CRD))

/-- The text that `yaml.Marshal` gives for a CRD (empty when it fails). -/
def marshalText {σ : Type} (marshal : CustomResourceDefinition σ → Except String String)
    (crd : CustomResourceDefinition σ) : String :=
  match marshal crd with
  | Except.ok s => s
  | Except.error _ => ""

/-! ## Concrete inputs -/

/-- A file system whose only marker file is `/a/PROJECT`. -/
def statMarkerAtA : String → StatResult :=
  fun p => if p = "/a/PROJECT" then StatResult.found else StatResult.notExist

/-- A file system in which `/etc/passwd` is a regular file: `os.Stat` of a path
below it fails with `ENOTDIR`, for which `os.IsNotExist` is false. -/
def statRegularFile : String → StatResult :=
  fun p =>
    if p = "/" ∨ p = "/etc" ∨ p = "/etc/passwd" then StatResult.found
    else if p = "/etc/passwd/PROJECT" then StatResult.otherError
    else StatResult.notExist

/-- A file of two lines: 65536 bytes `x`, then a domain line. -/
def longLineFile : String :=
  ⟨List.replicate 65536 'x' ++ "\ndomain: example.com\n".data⟩

/-- A file system without any file. -/
def statEmpty : String → StatResult := fun _ => StatResult.notExist

/-- An environment without any file: the walk starts in `/tmp/proj`, outside
the one `GOPATH` entry `/home/u/go`. -/
def envNoMarker : Env :=
  { stat := statEmpty
    abs := Except.ok "/tmp/proj"
    gopath := "/home/u/go"
    projectFile := Except.error "open ./PROJECT: no such file or directory" }

/-- A file system whose only file is `/proj/PROJECT`; there is no
`/proj/pkg/apis`. -/
def statProjOnly : String → StatResult :=
  fun p => if p = "/proj/PROJECT" then StatResult.found else StatResult.notExist

/-- An environment with working directory `/proj`, whose marker file has a
domain line, and without the directory `/proj/pkg/apis`. -/
def envNoApis : Env :=
  { stat := statProjOnly
    abs := Except.ok "/proj"
    gopath := "/home/u/go"
    projectFile := Except.ok "domain: example.com\n" }

/-- An environment with working directory `/proj`, whose marker file has no
domain line. -/
def envNoDomainLine : Env :=
  { stat := statProjOnly
    abs := Except.ok "/proj"
    gopath := "/home/u/go"
    projectFile := Except.ok "version: 1\n" }

/-- A serializer for the examples: the namespace, a bar and the rest. -/
def marshalBar (crd : CustomResourceDefinition String) : Except String String :=
  Except.ok (crd.Namespace ++ "|" ++ crd.rest)

/-- One group with one version and one resource: `apps`, `v1`, `Widget`, its
CRD without namespace. -/
def apisWidget : ParseAPIs String :=
  ⟨⟨[⟨[⟨[⟨"apps", "v1", "Widget", ⟨"", "spec"⟩⟩]⟩]⟩]⟩⟩

/-- Two resources with one file name: kinds `Widget` and `widget` of `apps`,
`v1`, in this traversal order. -/
def apisCollide : ParseAPIs String :=
  ⟨⟨[⟨[⟨[⟨"apps", "v1", "Widget", ⟨"", "first"⟩⟩, ⟨"apps", "v1", "widget", ⟨"", "second"⟩⟩]⟩]⟩]⟩⟩

/-! ## Lemmas on splitting and joining -/

theorem splitChars_of_not_mem {sep : Char} :
    ∀ e : List Char, sep ∉ e → splitChars sep e = [e]
  | [], _ => rfl
  | c :: e, h => by
    have hc : c ≠ sep := fun hc => h (by simp [hc])
    have ih := splitChars_of_not_mem e (fun hm => h (List.mem_cons_of_mem _ hm))
    simp [splitChars, hc, ih]

theorem splitChars_append_sep {sep : Char} :
    ∀ (e rest : List Char), sep ∉ e →
      splitChars sep (e ++ sep :: rest) = e :: splitChars sep rest
  | [], rest, _ => by simp [splitChars]
  | c :: e, rest, h => by
    have hc : c ≠ sep := fun hc => h (by simp [hc])
    have ih := splitChars_append_sep e rest (fun hm => h (List.mem_cons_of_mem _ hm))
    simp [splitChars, hc, ih]

theorem not_mem_of_mem_splitChars {sep : Char} :
    ∀ (s : List Char) (e : List Char), e ∈ splitChars sep s → sep ∉ e
  | [], e, he => by
    simp [splitChars] at he
    simp [he]
  | c :: s, e, he => by
    by_cases hc : c = sep
    · simp only [splitChars, hc, if_true, List.mem_cons] at he
      rcases he with he | he
      · simp [he]
      · exact not_mem_of_mem_splitChars s e he
    · simp only [splitChars, hc, if_false] at he
      cases hs : splitChars sep s with
      | nil =>
        rw [hs] at he
        simp only [List.mem_singleton] at he
        subst he
        simpa using Ne.symm hc
      | cons a t =>
        rw [hs] at he
        simp only [List.mem_cons] at he
        rcases he with he | he
        · subst he
          have ha := not_mem_of_mem_splitChars s a (by rw [hs]; simp)
          simp only [List.mem_cons, not_or]
          exact ⟨Ne.symm hc, ha⟩
        · exact not_mem_of_mem_splitChars s e (by rw [hs]; simp [he])

theorem joinChars_append_singleton (sep : List Char) :
    ∀ (init : List (List Char)), init ≠ [] → ∀ last : List Char,
      joinChars sep (init ++ [last]) = joinChars sep init ++ sep ++ last
  | [], h, _ => absurd rfl h
  | [e], _, last => by simp [joinChars]
  | e :: e2 :: es, _, last => by
    have ih := joinChars_append_singleton sep (e2 :: es) (by simp) last
    simp only [List.cons_append] at ih
    show e ++ sep ++ joinChars sep (e2 :: (es ++ [last])) = _
    rw [ih]
    simp [joinChars, List.append_assoc]

theorem splitChars_joinChars_append {sep : Char} :
    ∀ (elems : List (List Char)), elems ≠ [] → (∀ e ∈ elems, sep ∉ e) → ∀ rest : List Char,
      splitChars sep (joinChars [sep] elems ++ sep :: rest) = elems ++ splitChars sep rest
  | [], h, _, _ => absurd rfl h
  | [e], _, hs, rest => by
    simpa [joinChars] using splitChars_append_sep e rest (hs e (by simp))
  | e :: e2 :: es, _, hs, rest => by
    have ih := splitChars_joinChars_append (e2 :: es) (by simp)
      (fun x hx => hs x (List.mem_cons_of_mem _ hx)) rest
    have he := hs e (by simp)
    have : joinChars [sep] (e :: e2 :: es) ++ sep :: rest
        = e ++ sep :: (joinChars [sep] (e2 :: es) ++ sep :: rest) := by
      simp [joinChars, List.append_assoc]
    rw [this, splitChars_append_sep e _ he, ih]
    simp

theorem splitChars_joinChars {sep : Char} :
    ∀ (elems : List (List Char)), elems ≠ [] → (∀ e ∈ elems, sep ∉ e) →
      splitChars sep (joinChars [sep] elems) = elems
  | [], h, _ => absurd rfl h
  | [e], _, hs => by
    simpa [joinChars] using splitChars_of_not_mem e (hs e (by simp))
  | e :: e2 :: es, _, hs => by
    have ih := splitChars_joinChars (e2 :: es) (by simp)
      (fun x hx => hs x (List.mem_cons_of_mem _ hx))
    have he := hs e (by simp)
    have : joinChars [sep] (e :: e2 :: es) = e ++ sep :: joinChars [sep] (e2 :: es) := by
      simp [joinChars, List.append_assoc]
    rw [this, splitChars_append_sep e _ he, ih]

theorem splitDirChars_append_slash (x last : List Char) (h : '/' ∉ last) :
    splitDirChars (x ++ '/' :: last) = x ++ ['/'] := by
  unfold splitDirChars
  have hr : (x ++ '/' :: last).reverse = last.reverse ++ '/' :: x.reverse := by simp
  rw [hr, List.dropWhile_append_of_pos]
  · simp [List.dropWhile]
  · intro a ha
    have : a ≠ '/' := fun hc => h (by simpa [hc] using ha)
    simpa using this

/-! ## The library functions on small inputs -/

theorem pathClean_examples :
    pathClean "/a/b/../c/./d//" = "/a/c/d" ∧ pathClean "a/../.." = ".."
      ∧ pathClean "../a/.." = ".." ∧ pathClean "/../a" = "/a"
      ∧ pathClean "" = "." ∧ pathClean "./" = "." := by
  decide

theorem pathDir_examples :
    pathDir "/a/b/c" = "/a/b" ∧ pathDir "/a" = "/" ∧ pathDir "/" = "/"
      ∧ pathDir "a" = "." ∧ pathDir "." = "." ∧ pathDir "/a/b/" = "/a/b" := by
  decide

theorem pathJoin_examples :
    pathJoin ["/proj", "PROJECT"] = "/proj/PROJECT" ∧ pathJoin ["", "PROJECT"] = "PROJECT"
      ∧ pathJoin ["/", "pkg/apis"] = "/pkg/apis" := by
  decide

theorem strings_examples :
    stringsSplit "/home/u/go:/opt/go" ':' = ["/home/u/go", "/opt/go"]
      ∧ stringsSplit "" ':' = [""]
      ∧ stringsSplit "domain: a:b" ':' = ["domain", " a", "b"]
      ∧ stringsReplaceAll " a b " ' ' "" = "ab"
      ∧ stringsToLower (fun c => c) "WidgetSet9" = "widgetset9"
      ∧ ancestorChain "/a/b/c" = ["/a/b/c", "/a/b", "/a", "/"] := by
  decide

/-! ## Lemmas on `path.Clean` and `path.Dir` -/

theorem filter_ne_nil_of_isElem (elems : List (List Char)) (h : ∀ e ∈ elems, IsElem e) :
    elems.filter (fun e => e ≠ []) = elems := by
  rw [List.filter_eq_self]
  intro e he
  simpa using (h e he).1

theorem cleanLoop_rooted_of_proper :
    ∀ (es out : List (List Char)), (∀ e ∈ es, e = [] ∨ IsElem e) →
      cleanLoop true es out 0 = out ++ es.filter (fun e => e ≠ [])
  | [], out, _ => by simp [cleanLoop]
  | e :: es, out, h => by
    have ih := fun out => cleanLoop_rooted_of_proper es out
      (fun x hx => h x (List.mem_cons_of_mem _ hx))
    rcases h e (by simp) with he | he
    · subst he
      simp [cleanLoop, ih]
    · obtain ⟨h1, _, h3, h4⟩ := he
      simp [cleanLoop, h1, h3, h4, ih]

theorem cleanLoop_rooted_isElem :
    ∀ (es out : List (List Char)), (∀ e ∈ es, '/' ∉ e) → (∀ e ∈ out, IsElem e) →
      ∀ e ∈ cleanLoop true es out 0, IsElem e
  | [], out, _, ho => by simpa [cleanLoop] using ho
  | e :: es, out, hs, ho => by
    have hs' : ∀ x ∈ es, '/' ∉ x := fun x hx => hs x (List.mem_cons_of_mem _ hx)
    unfold cleanLoop
    split_ifs with h1 h2 h3 h4 h5
    · exact cleanLoop_rooted_isElem es out hs' ho
    · exact cleanLoop_rooted_isElem es out hs' ho
    · exact cleanLoop_rooted_isElem es _ hs' (fun x hx => ho x (List.mem_of_mem_dropLast hx))
    · simp at h5
    · exact cleanLoop_rooted_isElem es out hs' ho
    · refine cleanLoop_rooted_isElem es _ hs' ?_
      intro x hx
      rcases List.mem_append.1 hx with hx | hx
      · exact ho x hx
      · simp only [List.mem_singleton] at hx
        subst hx
        exact ⟨h1, hs x (by simp), h2, h3⟩

/-- Cleaning a rooted path gives the absolute path of the elements that the
element loop keeps. -/
theorem cleanChars_rooted (q : List Char) :
    cleanChars ('/' :: q) = absChars (cleanLoop true (splitChars '/' q) [] 0) := by
  simp [cleanChars, splitChars, cleanLoop, absChars]

theorem cleanChars_absChars (elems : List (List Char)) (h : ∀ e ∈ elems, IsElem e) :
    cleanChars (absChars elems) = absChars elems := by
  unfold absChars
  rw [cleanChars_rooted]
  by_cases hn : elems = []
  · subst hn
    simp [joinChars, splitChars, cleanLoop, absChars]
  · rw [splitChars_joinChars elems hn (fun e he => (h e he).2.1),
      cleanLoop_rooted_of_proper elems [] (fun e he => Or.inr (h e he))]
    rw [filter_ne_nil_of_isElem elems h, List.nil_append]
    rfl

theorem absChars_of_clean (p : List Char) (habs : p.head? = some '/')
    (hclean : cleanChars p = p) : ∃ elems, (∀ e ∈ elems, IsElem e) ∧ p = absChars elems := by
  cases p with
  | nil => simp at habs
  | cons c q =>
    simp only [List.head?_cons, Option.some.injEq] at habs
    subst habs
    refine ⟨cleanLoop true (splitChars '/' q) [] 0, ?_, ?_⟩
    · exact cleanLoop_rooted_isElem _ [] (fun e he => not_mem_of_mem_splitChars q e he)
        (by simp)
    · rw [← cleanChars_rooted, hclean]

theorem pathElems_absPath (elems : List (List Char)) (h : ∀ e ∈ elems, IsElem e) :
    pathElems (absPath elems) = elems := by
  have hf := filter_ne_nil_of_isElem elems h
  unfold pathElems absPath absChars
  by_cases hn : elems = []
  · subst hn
    decide
  · simp only [splitChars, if_true]
    rw [splitChars_joinChars elems hn (fun e he => (h e he).2.1), List.filter_cons]
    simpa using hf

theorem absPath_eq_root_iff (elems : List (List Char)) (h : ∀ e ∈ elems, IsElem e) :
    absPath elems = "/" ↔ elems = [] := by
  constructor
  · intro hp
    have := congrArg pathElems hp
    rw [pathElems_absPath elems h] at this
    rw [this]
    decide
  · intro hn
    subst hn
    decide

/-- On an absolute cleaned path `path.Dir` drops the last element. -/
theorem pathDir_absPath (elems : List (List Char)) (h : ∀ e ∈ elems, IsElem e) :
    pathDir (absPath elems) = absPath elems.dropLast := by
  apply String.ext
  show cleanChars (splitDirChars (absChars elems)) = absChars elems.dropLast
  rcases List.eq_nil_or_concat elems with hn | ⟨init, last, hl⟩
  · subst hn
    decide
  · rw [List.concat_eq_append] at hl
    subst hl
    have hlast : IsElem last := h last (by simp)
    have hinit : ∀ e ∈ init, IsElem e := fun e he => h e (by simp [he])
    rw [List.dropLast_concat]
    by_cases hn : init = []
    · subst hn
      have : absChars ([] ++ [last]) = [] ++ '/' :: last := by simp [absChars, joinChars]
      rw [this, splitDirChars_append_slash [] last hlast.2.1]
      decide
    · have : absChars (init ++ [last]) = absChars init ++ '/' :: last := by
        simp [absChars, joinChars_append_singleton ['/'] init hn last]
      rw [this, splitDirChars_append_slash _ last hlast.2.1]
      show cleanChars ('/' :: joinChars ['/'] init ++ ['/']) = absChars init
      rw [List.cons_append, cleanChars_rooted,
        splitChars_joinChars_append init hn (fun e he => (hinit e he).2.1) [],
        cleanLoop_rooted_of_proper _ [] ?_]
      · have hf := filter_ne_nil_of_isElem init hinit
        rw [List.filter_append, hf]
        simp [splitChars]
      · intro e he
        rcases List.mem_append.1 he with he | he
        · exact Or.inr (hinit e he)
        · left
          simpa [splitChars] using he

/-! ## The upward search of `GenerateCRDs` -/

theorem take_dropLast_sub (elems : List (List Char)) (k : Nat) :
    elems.dropLast.take (elems.dropLast.length - k) = elems.take (elems.length - (k + 1)) := by
  rw [List.length_dropLast, List.dropLast_eq_take, List.take_take]
  congr 1
  omega

theorem chainOf_eq_cons (elems : List (List Char)) :
    chainOf elems = absPath elems :: (if elems = [] then [] else chainOf elems.dropLast) := by
  unfold chainOf
  rw [List.range_succ_eq_map, List.map_cons, List.map_map]
  simp only [Nat.sub_zero, List.take_length]
  congr 1
  by_cases hn : elems = []
  · subst hn
    simp
  · rw [if_neg hn]
    have hlen : elems.dropLast.length + 1 = elems.length := by
      rw [List.length_dropLast]
      have : 0 < elems.length := List.length_pos.2 hn
      omega
    rw [← hlen]
    apply List.map_congr_left
    intro k _
    simp only [Function.comp, Nat.succ_eq_add_one]
    rw [hlen, ← take_dropLast_sub elems k]

theorem isElem_dropLast (elems : List (List Char)) (h : ∀ e ∈ elems, IsElem e) :
    ∀ e ∈ elems.dropLast, IsElem e :=
  fun e he => h e (List.mem_of_mem_dropLast he)

theorem iterate_pathDir_absPath :
    ∀ (k : Nat) (elems : List (List Char)), (∀ e ∈ elems, IsElem e) →
      pathDir^[k] (absPath elems) = absPath (elems.take (elems.length - k))
  | 0, elems, _ => by simp
  | k + 1, elems, h => by
    rw [Function.iterate_succ_apply, pathDir_absPath elems h,
      iterate_pathDir_absPath k _ (isElem_dropLast elems h), take_dropLast_sub]

theorem ancestorChain_absPath (elems : List (List Char)) (h : ∀ e ∈ elems, IsElem e) :
    ancestorChain (absPath elems) = chainOf elems := by
  unfold ancestorChain pathDepth chainOf
  rw [pathElems_absPath elems h]

theorem searchLoop_fuel_succ (stat : String → StatResult) :
    ∀ (fuel : Nat) (c : CRDGenerator) (r : Stage CRDGenerator),
      CRDGenerator.searchLoop stat fuel c = some r →
        CRDGenerator.searchLoop stat (fuel + 1) c = some r
  | 0, _, _, h => by simp [CRDGenerator.searchLoop] at h
  | fuel + 1, c, r, h => by
    unfold CRDGenerator.searchLoop at h ⊢
    split_ifs at h ⊢ with h1 h2
    · exact h
    · exact h
    · exact searchLoop_fuel_succ stat fuel _ r h

theorem searchLoop_fuel_le (stat : String → StatResult) (c : CRDGenerator)
    (r : Stage CRDGenerator) (n : Nat) (h : CRDGenerator.searchLoop stat n c = some r) :
    ∀ fuel, n ≤ fuel → CRDGenerator.searchLoop stat fuel c = some r := by
  intro fuel hle
  induction hle with
  | refl => exact h
  | step _ ih => exact searchLoop_fuel_succ stat _ c r ih

theorem searchLoop_absPath (stat : String → StatResult) (c : CRDGenerator) :
    ∀ (n : Nat) (elems : List (List Char)), elems.length = n → (∀ e ∈ elems, IsElem e) →
      CRDGenerator.searchLoop stat (n + 1) { c with RootPath := absPath elems }
        = some (searchResult stat c (chainOf elems))
  | 0, elems, hlen, _ => by
    have hn : elems = [] := List.length_eq_zero.1 hlen
    subst hn
    rw [chainOf_eq_cons]
    simp only [if_true, searchResult, List.find?_cons, List.find?_nil]
    unfold CRDGenerator.searchLoop
    have hr : absPath [] = "/" := by decide
    rw [hr]
    cases hm : pathHasProjectFile stat "/" <;> simp
  | n + 1, elems, hlen, h => by
    have hn : elems ≠ [] := by
      intro hn
      subst hn
      simp at hlen
    rw [chainOf_eq_cons, if_neg hn]
    simp only [searchResult, List.find?_cons]
    unfold CRDGenerator.searchLoop
    cases hm : pathHasProjectFile stat (absPath elems)
    · have hr : absPath elems ≠ "/" := fun hr => hn ((absPath_eq_root_iff elems h).1 hr)
      have ih := searchLoop_absPath stat c n elems.dropLast
        (by rw [List.length_dropLast, hlen]; rfl) (isElem_dropLast elems h)
      simp only [hr, if_false, pathDir_absPath elems h, Bool.false_eq_true]
      simpa [searchResult] using ih
    · simp

theorem searchLoop_none_of_no_marker (stat : String → StatResult) (c : CRDGenerator) :
    ∀ (fuel : Nat) (elems : List (List Char)), (∀ e ∈ elems, IsElem e) →
      fuel ≤ elems.length → (∀ d ∈ chainOf elems, pathHasProjectFile stat d = false) →
      CRDGenerator.searchLoop stat fuel { c with RootPath := absPath elems } = none
  | 0, _, _, _, _ => rfl
  | fuel + 1, elems, h, hle, hno => by
    have hn : elems ≠ [] := by
      intro hn
      subst hn
      simp at hle
    rw [chainOf_eq_cons, if_neg hn] at hno
    have hm : pathHasProjectFile stat (absPath elems) = false := hno _ (by simp)
    have hr : absPath elems ≠ "/" := fun hr => hn ((absPath_eq_root_iff elems h).1 hr)
    unfold CRDGenerator.searchLoop
    simp only [hm, hr, if_false, pathDir_absPath elems h, Bool.false_eq_true]
    refine searchLoop_none_of_no_marker stat c fuel elems.dropLast (isElem_dropLast elems h)
      ?_ (fun d hd => hno d (List.mem_cons_of_mem _ hd))
    rw [List.length_dropLast]
    omega

theorem string_length_eq_zero_iff (s : String) : s.length = 0 ↔ s = "" := by
  constructor
  · intro h
    apply String.ext
    cases s with
    | mk d => simpa [String.length] using h
  · intro h
    subst h
    rfl

/-- C2: with no explicit root and an absolute cleaned starting path, the search
of `GenerateCRDs` goes along the ancestor chain of the start (the start, then
`path.Dir` applied again and again, down to `/`).  It leaves in `RootPath` the
nearest directory of the chain that has the marker; and when no directory of
the chain has it, it returns the "failed to find working directory" error after
exactly as many upward steps as the start is deep: the loop ends in its
`depth + 1`st round and not before. -/
theorem resolveRoot_search (stat : String → StatResult) (c : CRDGenerator) (start : String)
    (hroot : c.RootPath = "") (hstart : IsAbsClean start) :
    ancestorChain start = (List.range (pathDepth start + 1)).map (fun k => pathDir^[k] start)
    ∧ (∀ d, (ancestorChain start).find? (fun d => pathHasProjectFile stat d) = some d →
        ∀ fuel, pathDepth start < fuel →
          CRDGenerator.resolveRoot stat (Except.ok start) fuel c
            = some (Stage.proceed { c with RootPath := d }))
    ∧ ((∀ d ∈ ancestorChain start, pathHasProjectFile stat d = false) →
        pathDir^[pathDepth start] start = "/"
        ∧ (∀ fuel, pathDepth start < fuel →
            CRDGenerator.resolveRoot stat (Except.ok start) fuel c
              = some (Stage.returned "failed to find working directory that contains PROJECT"
                  { c with RootPath := "/" }))
        ∧ (∀ fuel, fuel ≤ pathDepth start →
            CRDGenerator.resolveRoot stat (Except.ok start) fuel c = none)) := by
  obtain ⟨elems, helems, hp⟩ := absChars_of_clean start.data hstart.1
    (congrArg String.data hstart.2)
  have hs : start = absPath elems := String.ext hp
  subst hs
  have hdepth : pathDepth (absPath elems) = elems.length := by
    unfold pathDepth
    rw [pathElems_absPath elems helems]
  have hres : ∀ fuel, CRDGenerator.resolveRoot stat (Except.ok (absPath elems)) fuel c
      = CRDGenerator.searchLoop stat fuel { c with RootPath := absPath elems } := by
    intro fuel
    simp [CRDGenerator.resolveRoot, hroot]
  rw [ancestorChain_absPath elems helems, hdepth]
  refine ⟨?_, ?_, ?_⟩
  · unfold chainOf
    apply List.map_congr_left
    intro k _
    rw [iterate_pathDir_absPath k elems helems]
  · intro d hd fuel hfuel
    rw [hres]
    apply searchLoop_fuel_le stat _ _ (elems.length + 1) _ fuel hfuel
    rw [searchLoop_absPath stat c elems.length elems rfl helems]
    simp [searchResult, hd]
  · intro hno
    refine ⟨?_, ?_, ?_⟩
    · rw [iterate_pathDir_absPath _ elems helems]
      simp
      decide
    · intro fuel hfuel
      rw [hres]
      apply searchLoop_fuel_le stat _ _ (elems.length + 1) _ fuel hfuel
      rw [searchLoop_absPath stat c elems.length elems rfl helems]
      have : (chainOf elems).find? (fun d => pathHasProjectFile stat d) = none := by
        rw [List.find?_eq_none]
        intro d hd
        simp [hno d hd]
      simp [searchResult, this]
    · intro fuel hfuel
      rw [hres]
      exact searchLoop_none_of_no_marker stat c fuel elems helems hfuel hno

/-- Witness of C2: from `/a/b` the search stops at `/a`, which has the marker. -/
theorem resolveRoot_search_witness :
    IsAbsClean "/a/b" ∧
      CRDGenerator.resolveRoot statMarkerAtA (Except.ok "/a/b") 3 ⟨"", "", true⟩
        = some (Stage.proceed ⟨"/a", "", true⟩) :=
  ⟨by decide,
   (resolveRoot_search statMarkerAtA ⟨"", "", true⟩ "/a/b" rfl (by decide)).2.1 "/a"
     (by decide) 3 (by decide)⟩

/-- With a non-empty explicit `RootPath`, `GenerateCRDs` returns the
invalid-root error exactly when `os.Stat` of `<RootPath>/PROJECT` reports
not-exist; on every other result of `os.Stat`, an error included, it goes on
with the receiver unchanged, for every fuel (zero included, so no round of the
search loop is run) and whatever `filepath.Abs` would give. -/
theorem resolveRoot_explicit (stat : String → StatResult) (abs : Except String String)
    (fuel : Nat) (c : CRDGenerator) (h : c.RootPath ≠ "") :
    (pathHasProjectFile stat c.RootPath = false ↔
        stat (pathJoin [c.RootPath, "PROJECT"]) = StatResult.notExist)
    ∧ (pathHasProjectFile stat c.RootPath = false →
        CRDGenerator.resolveRoot stat abs fuel c
          = some (Stage.returned "Input path must be a diretory containing PROJECT" c))
    ∧ (pathHasProjectFile stat c.RootPath = true →
        CRDGenerator.resolveRoot stat abs fuel c = some (Stage.proceed c)) := by
  have hlen : c.RootPath.length ≠ 0 := fun hl => h ((string_length_eq_zero_iff _).1 hl)
  have hpos : c.RootPath.length > 0 := Nat.pos_of_ne_zero hlen
  refine ⟨?_, ?_, ?_⟩
  · unfold pathHasProjectFile
    split_ifs with hs <;> simp [hs]
  · intro hm
    simp [CRDGenerator.resolveRoot, hpos, hm]
  · intro hm
    simp [CRDGenerator.resolveRoot, hm, hlen]

/-- An explicit root `/a` with the marker is kept, and no search round is
run. -/
theorem resolveRoot_explicit_kept :
    CRDGenerator.resolveRoot statMarkerAtA (Except.ok "/a/b") 0 ⟨"/a", "", true⟩
        = some (Stage.proceed ⟨"/a", "", true⟩) :=
  (resolveRoot_explicit statMarkerAtA (Except.ok "/a/b") 0 ⟨"/a", "", true⟩
    (by decide)).2.2 (by decide)

/-- C4: with the explicit root `/etc/passwd`, a regular file under which there
is no `PROJECT` file, `GenerateCRDs` does not return the invalid-root error:
`os.Stat` fails with an error that is not not-exist, `pathHasProjectFile` is
true and the path is taken as the root. -/
theorem resolveRoot_accepts_regular_file (abs : Except String String) (fuel : Nat) :
    statRegularFile (pathJoin ["/etc/passwd", "PROJECT"]) = StatResult.otherError
      ∧ pathHasProjectFile statRegularFile "/etc/passwd" = true
      ∧ CRDGenerator.resolveRoot statRegularFile abs fuel ⟨"/etc/passwd", "", true⟩
          = some (Stage.proceed ⟨"/etc/passwd", "", true⟩) := by
  have hm : pathHasProjectFile statRegularFile "/etc/passwd" = true := by decide
  have hlen : ("/etc/passwd" : String).length ≠ 0 := by decide
  refine ⟨by decide, hm, ?_⟩
  simp only [CRDGenerator.resolveRoot, hm, hlen, if_false, and_false, Bool.true_eq_false]

/-! ## `ValidateAndInitFields` -/

theorem pathHasProjectFile_statEmpty (p : String) : pathHasProjectFile statEmpty p = false := by
  simp [pathHasProjectFile, statEmpty]

theorem walkLoop_envNoMarker :
    ∀ (fuel : Nat) (c : Generator), c.RootPath ∈ ["/tmp/proj", "/tmp", "/"] →
      Generator.walkLoop envNoMarker fuel c = none
  | 0, _, _ => rfl
  | fuel + 1, c, hc => by
    have hm : pathHasProjectFile envNoMarker.stat c.RootPath = false :=
      pathHasProjectFile_statEmpty _
    have hg : isGoPath envNoMarker.gopath c.RootPath = false := by
      simp only [List.mem_cons, List.mem_singleton, List.not_mem_nil, or_false] at hc
      rcases hc with h | h | h <;> rw [h] <;> decide
    have hd : pathDir c.RootPath ∈ ["/tmp/proj", "/tmp", "/"] := by
      simp only [List.mem_cons, List.mem_singleton, List.not_mem_nil, or_false] at hc
      rcases hc with h | h | h <;> rw [h] <;> decide
    unfold Generator.walkLoop
    simp only [hm, hg, if_false, Bool.false_eq_true]
    exact walkLoop_envNoMarker fuel _ hd

/-- C3: started in `/tmp/proj` with no domain, `GOPATH=/home/u/go` and no
marker file anywhere, `ValidateAndInitFields` does not finish for any fuel:
the walk goes up to `/`, which is no `GOPATH` entry, and `path.Dir` of `/` is
`/` again. -/
theorem validateAndInitFields_walk_never_ends (fuel : Nat) :
    pathDir "/" = "/"
      ∧ Generator.ValidateAndInitFields envNoMarker fuel ⟨"/tmp/proj", "", "", true⟩ = none := by
  refine ⟨by decide, ?_⟩
  have h := walkLoop_envNoMarker fuel ⟨"/tmp/proj", "", "", true⟩ (by simp)
  have h1 : ("/tmp/proj" : String).length ≠ 0 := by decide
  have h2 : ("" : String).length = 0 := by decide
  simp only [Generator.ValidateAndInitFields, h1, h2, if_false, if_true, h]

/-- C9: with root `/proj`, an explicit domain and no directory `/proj/pkg/apis`,
`ValidateAndInitFields` returns `nil`: the error built for the missing
directory is dropped. -/
theorem validateAndInitFields_missing_apis_nil (fuel : Nat) :
    envNoApis.stat (pathJoin ["/proj", "pkg/apis"]) = StatResult.notExist
      ∧ Generator.ValidateAndInitFields envNoApis fuel ⟨"/proj", "example.com", "", true⟩
        = some (Run.done (none, ⟨"/proj", "example.com", "", true⟩)) := by
  refine ⟨by decide, ?_⟩
  have h1 : ("/proj" : String).length ≠ 0 := by decide
  have h2 : ("example.com" : String).length ≠ 0 := by decide
  simp only [Generator.ValidateAndInitFields, Generator.afterWalk, h1, h2, if_false]

/-- C8: with root `/proj`, no explicit domain and a marker file without a
domain line, `ValidateAndInitFields` returns `nil` and leaves `Domain` empty,
in the first round of the walk loop. -/
theorem validateAndInitFields_empty_domain_nil (fuel : Nat) :
    envNoDomainLine.stat (pathJoin ["/proj", "PROJECT"]) = StatResult.found
      ∧ getDomainFromProject envNoDomainLine.projectFile = Run.done ""
      ∧ Generator.ValidateAndInitFields envNoDomainLine (fuel + 1) ⟨"/proj", "", "", true⟩
        = some (Run.done (none, ⟨"/proj", "", "", true⟩)) := by
  refine ⟨by decide, by decide, ?_⟩
  have h1 : ("/proj" : String).length ≠ 0 := by decide
  have h2 : ("" : String).length = 0 := by decide
  have hm : pathHasProjectFile envNoDomainLine.stat "/proj" = true := by decide
  have hd : getDomainFromProject envNoDomainLine.projectFile = Run.done "" := by decide
  simp only [Generator.ValidateAndInitFields, Generator.walkLoop, Generator.afterWalk, h1, h2,
    hm, hd, if_false, if_true]

/-! ## `getDomainFromProject` -/

theorem splitChars_length_of_mem {sep : Char} :
    ∀ s : List Char, sep ∈ s → 2 ≤ (splitChars sep s).length
  | [], h => by simp at h
  | c :: s, h => by
    have hpos : ∀ t : List Char, 1 ≤ (splitChars sep t).length := by
      intro t
      cases t with
      | nil => simp [splitChars]
      | cons a t =>
        unfold splitChars
        split_ifs
        · simp
        · split <;> simp
    by_cases hc : c = sep
    · have := hpos s
      simp only [splitChars, hc, if_true, List.length_cons]
      omega
    · have hs : sep ∈ s := by
        rcases List.mem_cons.1 h with h | h
        · exact absurd h.symm hc
        · exact h
      have ih := splitChars_length_of_mem s hs
      simp only [splitChars, hc, if_false]
      cases hsp : splitChars sep s with
      | nil => rw [hsp] at ih; simp at ih
      | cons a t => rw [hsp] at ih; simpa using ih

theorem stringsReplaceAll_empty (s : String) (old : Char) :
    stringsReplaceAll s old "" = ⟨s.data.filter (fun c => c ≠ old)⟩ := by
  unfold stringsReplaceAll
  congr 1
  induction s.data with
  | nil => rfl
  | cons c cs ih =>
    rw [List.foldr_cons, ih, List.filter_cons]
    by_cases hc : c = old
    · simp [hc]
    · simp [hc]

theorem data_of_hasPrefix_domain (text : String) (h : stringsHasPrefix text "domain:" = true) :
    text.data = "domain".data ++ ':' :: afterFirstColon text := by
  unfold stringsHasPrefix at h
  obtain ⟨t, ht⟩ := List.isPrefixOf_iff_prefix.1 h
  unfold afterFirstColon
  rw [← ht]
  rfl

theorem scanDomain_domain_line (text : String) (rest : List String)
    (h : stringsHasPrefix text "domain:" = true) :
    scanDomain (text :: rest) =
      if ':' ∈ afterFirstColon text then Run.fatal ("Unexpected domain info: " ++ text)
      else Run.done (domainSpacesRemoved text) := by
  have hd := data_of_hasPrefix_domain text h
  have hsplit : splitChars ':' text.data
      = "domain".data :: splitChars ':' (afterFirstColon text) := by
    conv_lhs => rw [hd]
    exact splitChars_append_sep _ _ (by decide)
  unfold scanDomain
  simp only [h, if_true, stringsSplit, hsplit, List.map_cons]
  split_ifs with hc
  · have hlen := splitChars_length_of_mem _ hc
    cases hsp : splitChars ':' (afterFirstColon text) with
    | nil => rw [hsp] at hlen; simp at hlen
    | cons a t =>
      cases t with
      | nil => rw [hsp] at hlen; simp at hlen
      | cons b t => rfl
  · rw [splitChars_of_not_mem _ hc]
    simp only [List.map_cons, List.map_nil]
    rw [stringsReplaceAll_empty]
    rfl

theorem isPrefixOf_append_singleton (c : Char) :
    ∀ (pre p : List Char), c ∉ pre → pre.isPrefixOf (p ++ [c]) = pre.isPrefixOf p
  | [], _, _ => by simp
  | a :: pre, [], h => by
    have hac : a ≠ c := fun hac => h (by simp [hac])
    simp [List.isPrefixOf, hac]
  | a :: pre, b :: p, h => by
    have ih := isPrefixOf_append_singleton c pre p (fun hm => h (List.mem_cons_of_mem _ hm))
    show ((a == b) && pre.isPrefixOf (p ++ [c])) = ((a == b) && pre.isPrefixOf p)
    rw [ih]

theorem hasPrefix_dropCR (line : String) :
    stringsHasPrefix (dropCR line) "domain:" = stringsHasPrefix line "domain:" := by
  unfold dropCR
  split_ifs with h
  · unfold stringsHasPrefix
    have hne : line.data ≠ [] := by
      intro hn
      rw [hn] at h
      simp at h
    have hl : line.data = line.data.dropLast ++ ['\r'] := by
      have h1 := List.dropLast_append_getLast hne
      have h2 : line.data.getLast hne = '\r' := by
        rw [List.getLast?_eq_getLast _ hne] at h
        exact Option.some.inj h
      rw [h2] at h1
      exact h1.symm
    conv_rhs => rw [hl]
    exact (isPrefixOf_append_singleton '\r' _ _ (by decide)).symm
  · rfl

/-- The scan over the lines of a file whose lines are short enough up to its
first domain line: that line alone decides. -/
theorem scanDomain_scannerTexts_of_find (l : String) :
    ∀ lines : List String,
      lines.find? (fun t => stringsHasPrefix t "domain:") = some l →
      (∀ t ∈ lines.takeWhile (fun t => !stringsHasPrefix t "domain:"),
        t.utf8ByteSize ≤ maxLineBytes) →
      l.utf8ByteSize ≤ maxLineBytes →
        scanDomain (scannerTexts lines) = scanDomain [dropCR l]
          ∧ stringsHasPrefix (dropCR l) "domain:" = true
  | [], h, _, _ => by simp at h
  | text :: rest, h, hshort, hl => by
    rw [List.find?_cons] at h
    cases hp : stringsHasPrefix text "domain:" with
    | true =>
      rw [hp] at h
      simp only [Option.some.injEq] at h
      subst h
      have hp' : stringsHasPrefix (dropCR text) "domain:" = true := by
        rw [hasPrefix_dropCR, hp]
      refine ⟨?_, hp'⟩
      have hsz : ¬ text.utf8ByteSize > maxLineBytes := Nat.not_lt.2 hl
      simp only [scannerTexts, hsz, if_false]
      rw [scanDomain_domain_line _ _ hp', scanDomain_domain_line _ [] hp']
    | false =>
      rw [hp] at h
      have htw : (text :: rest).takeWhile (fun t => !stringsHasPrefix t "domain:")
          = text :: rest.takeWhile (fun t => !stringsHasPrefix t "domain:") := by
        simp [List.takeWhile, hp]
      rw [htw] at hshort
      have ht : text.utf8ByteSize ≤ maxLineBytes := hshort text (by simp)
      have ih := scanDomain_scannerTexts_of_find l rest h
        (fun t ht => hshort t (List.mem_cons_of_mem _ ht)) hl
      refine ⟨?_, ih.2⟩
      have hsz : ¬ text.utf8ByteSize > maxLineBytes := Nat.not_lt.2 ht
      have hp' : stringsHasPrefix (dropCR text) "domain:" = false := by
        rw [hasPrefix_dropCR, hp]
      simp only [scannerTexts, hsz, if_false]
      rw [← ih.1]
      conv_lhs => unfold scanDomain
      simp [hp']

/-- The scan over the lines of a file that has too long a line before any
domain line, or whose first domain line is too long: `Scan` stops there and
`domain` stays empty. -/
theorem scanDomain_scannerTexts_of_long (l : String) :
    ∀ lines : List String,
      lines.find? (fun t => stringsHasPrefix t "domain:") = some l →
      ((∃ t ∈ lines.takeWhile (fun t => !stringsHasPrefix t "domain:"),
          maxLineBytes < t.utf8ByteSize) ∨ maxLineBytes < l.utf8ByteSize) →
        scanDomain (scannerTexts lines) = Run.done ""
  | [], h, _ => by simp at h
  | text :: rest, h, hlong => by
    rw [List.find?_cons] at h
    by_cases hsz : text.utf8ByteSize > maxLineBytes
    · simp [scannerTexts, hsz, scanDomain]
    · cases hp : stringsHasPrefix text "domain:" with
      | true =>
        rw [hp] at h
        simp only [Option.some.injEq] at h
        subst h
        rcases hlong with ⟨t, ht, _⟩ | hlong
        · simp [List.takeWhile, hp] at ht
        · exact absurd hlong hsz
      | false =>
        rw [hp] at h
        have hp' : stringsHasPrefix (dropCR text) "domain:" = false := by
          rw [hasPrefix_dropCR, hp]
        have ih := scanDomain_scannerTexts_of_long l rest h (by
          rcases hlong with ⟨t, ht, hlt⟩ | hlong
          · left
            simp only [List.takeWhile, hp, Bool.not_false, List.mem_cons] at ht
            rcases ht with ht | ht
            · subst ht
              exact absurd hlt hsz
            · exact ⟨t, ht, hlt⟩
          · exact Or.inr hlong)
        simp only [scannerTexts, hsz, if_false]
        rw [← ih]
        conv_lhs => unfold scanDomain
        simp [hp']

theorem utf8ByteSize_replicate_x (n : Nat) :
    (String.mk (List.replicate n 'x')).utf8ByteSize = n := by
  induction n with
  | zero => rfl
  | succ n ih =>
    have hx : Char.utf8Size 'x' = 1 := by decide
    simp only [String.utf8ByteSize] at ih ⊢
    rw [List.replicate_succ, String.utf8ByteSize.go, ih, hx]

/-- A line of 65536 bytes in front of the domain line: the scanner stops at it
and `getDomainFromProject` returns the empty string. -/
theorem getDomainFromProject_long_line :
    getDomainFromProject (Except.ok longLineFile) = Run.done "" := by
  have hsplit : splitChars '\n' longLineFile.data
      = List.replicate 65536 'x' :: splitChars '\n' "domain: example.com\n".data := by
    unfold longLineFile
    exact splitChars_append_sep _ _ (by
      intro hm
      have := List.eq_of_mem_replicate hm
      exact absurd this (by decide))
  have hrest : splitChars '\n' "domain: example.com\n".data = ["domain: example.com".data, []] := by
    decide
  have hlines : fileLines longLineFile
      = [String.mk (List.replicate 65536 'x'), "domain: example.com"] := by
    unfold fileLines
    rw [hsplit, hrest]
    rfl
  show scanDomain (scannerTexts (fileLines longLineFile)) = Run.done ""
  have hsz : (String.mk (List.replicate 65536 'x')).utf8ByteSize > maxLineBytes := by
    rw [utf8ByteSize_replicate_x]
    decide
  rw [hlines]
  simp only [scannerTexts, hsz, if_true]
  rfl

/-- C7 as stated fails: a tab after the colon stays in the returned domain,
which so differs from the text with all whitespace removed; and a domain line
with a second colon ends the process instead of giving a domain. -/
theorem getDomainFromProject_not_whitespace_free :
    fileLines "domain:\texample.com\n" = ["domain:\texample.com"]
      ∧ stringsHasPrefix "domain:\texample.com" "domain:" = true
      ∧ getDomainFromProject (Except.ok "domain:\texample.com\n") = Run.done "\texample.com"
      ∧ getDomainFromProject (Except.ok "domain:\texample.com\n")
          ≠ Run.done (domainAllWhitespaceRemoved "domain:\texample.com")
      ∧ getDomainFromProject (Except.ok "domain: a:b\n")
          = Run.fatal "Unexpected domain info: domain: a:b" := by
  decide

/-- C7 amended: when the file can be opened, has a line beginning with
`domain:`, and that first such line and every line before it have at most
65535 bytes, the result is fixed by that line alone (the other lines do not
matter).  With one trailing carriage return dropped, if the text after its
colon has no further colon, the result is that text with the space characters
removed; otherwise the process ends with "Unexpected domain info". -/
theorem getDomainFromProject_first_domain_line (content : String) (l : String)
    (h : (fileLines content).find? (fun t => stringsHasPrefix t "domain:") = some l)
    (hbefore : ∀ t ∈ (fileLines content).takeWhile (fun t => !stringsHasPrefix t "domain:"),
      t.utf8ByteSize ≤ 65535)
    (hl : l.utf8ByteSize ≤ 65535) :
    (':' ∉ afterFirstColon (dropCR l) →
        getDomainFromProject (Except.ok content) = Run.done (domainSpacesRemoved (dropCR l)))
      ∧ (':' ∈ afterFirstColon (dropCR l) →
          getDomainFromProject (Except.ok content)
            = Run.fatal ("Unexpected domain info: " ++ dropCR l)) := by
  obtain ⟨h1, h2⟩ := scanDomain_scannerTexts_of_find l (fileLines content) h hbefore hl
  have h3 := scanDomain_domain_line (dropCR l) [] h2
  refine ⟨?_, ?_⟩
  · intro hc
    show scanDomain (scannerTexts (fileLines content)) = _
    rw [h1, h3, if_neg hc]
  · intro hc
    show scanDomain (scannerTexts (fileLines content)) = _
    rw [h1, h3, if_pos hc]

/-- Witness of C7 amended: the first domain line decides, its carriage return
is dropped and its spaces are removed. -/
theorem getDomainFromProject_first_domain_line_witness :
    getDomainFromProject (Except.ok "version: 1\ndomain: example.com\r\ndomain: b\n")
      = Run.done "example.com" :=
  (getDomainFromProject_first_domain_line
    "version: 1\ndomain: example.com\r\ndomain: b\n" "domain: example.com\r"
    (by decide) (by decide) (by decide)).1 (by decide)

/-! ## Go maps -/

theorem GoMap.get?_set {V : Type} (k : String) (v : V) (k' : String) :
    ∀ m : GoMap V, GoMap.get? (GoMap.set m k v) k' = if k' = k then some v else GoMap.get? m k'
  | [] => by
    by_cases h : k' = k
    · simp [GoMap.set, GoMap.get?, h]
    · simp [GoMap.set, GoMap.get?, h, Ne.symm h]
  | (a, b) :: m => by
    have ih := GoMap.get?_set k v k' m
    unfold GoMap.get? at ih ⊢
    unfold GoMap.set
    by_cases h1 : a = k
    · by_cases h2 : k' = k
      · simp [h1, h2]
      · simp [h1, h2, Ne.symm h2]
    · by_cases h3 : a = k'
      · have h2 : k' ≠ k := fun h => h1 (h3.trans h)
        simp [h1, h3, h2]
      · simp only [h1, if_false, List.find?_cons, h3, decide_False]
        exact ih

theorem GoMap.mem_set {V : Type} (k : String) (v : V) (e : String × V) :
    ∀ m : GoMap V, e ∈ GoMap.set m k v → e = (k, v) ∨ e ∈ m
  | [], h => by
    simp [GoMap.set] at h
    exact Or.inl h
  | (a, b) :: m, h => by
    unfold GoMap.set at h
    split_ifs at h with h1
    · rcases List.mem_cons.1 h with h | h
      · exact Or.inl h
      · exact Or.inr (List.mem_cons_of_mem _ h)
    · rcases List.mem_cons.1 h with h | h
      · exact Or.inr (by rw [h]; exact List.mem_cons_self _ _)
      · rcases GoMap.mem_set k v e m h with h | h
        · exact Or.inl h
        · exact Or.inr (List.mem_cons_of_mem _ h)

theorem GoMap.keys_set {V : Type} (k : String) (v : V) :
    ∀ m : GoMap V,
      GoMap.keys (GoMap.set m k v) = if k ∈ GoMap.keys m then GoMap.keys m else GoMap.keys m ++ [k]
  | [] => by simp [GoMap.set, GoMap.keys]
  | (a, b) :: m => by
    have ih := GoMap.keys_set k v m
    unfold GoMap.keys at ih ⊢
    unfold GoMap.set
    by_cases h1 : a = k
    · simp [h1]
    · simp only [h1, if_false, List.map_cons, ih, List.mem_cons, Ne.symm h1, false_or]
      split_ifs <;> simp

theorem GoMap.nodup_keys_set {V : Type} (k : String) (v : V) (m : GoMap V)
    (h : (GoMap.keys m).Nodup) : (GoMap.keys (GoMap.set m k v)).Nodup := by
  rw [GoMap.keys_set]
  split_ifs with hk
  · exact h
  · rw [List.nodup_append]
    refine ⟨h, List.nodup_singleton k, ?_⟩
    intro a ha hb
    simp only [List.mem_singleton] at hb
    exact hk (hb ▸ ha)

theorem GoMap.mem_keys_iff {V : Type} (k : String) :
    ∀ m : GoMap V, k ∈ GoMap.keys m ↔ (GoMap.get? m k).isSome
  | [] => by simp [GoMap.keys, GoMap.get?]
  | (a, b) :: m => by
    have ih := GoMap.mem_keys_iff k m
    unfold GoMap.keys GoMap.get? at ih ⊢
    by_cases h : a = k
    · simp [h]
    · simp only [List.map_cons, List.mem_cons, List.find?_cons, h, decide_False]
      rw [← ih]
      simp [Ne.symm h]

/-- Storing a list of key-value pairs one after the other. -/
theorem GoMap.get?_foldl_set {V : Type} (k : String) :
    ∀ (kvs : List (String × V)) (m : GoMap V),
      GoMap.get? (kvs.foldl (fun m e => GoMap.set m e.1 e.2) m) k
        = ((kvs.reverse.find? (fun e => e.1 = k)).map Prod.snd).or (GoMap.get? m k)
  | [], m => by simp
  | e :: kvs, m => by
    rw [List.foldl_cons, GoMap.get?_foldl_set k kvs, GoMap.get?_set, List.reverse_cons,
      List.find?_append]
    cases hf : kvs.reverse.find? (fun e => e.1 = k) with
    | some x => simp
    | none =>
      by_cases h : e.1 = k
      · simp [h]
      · simp [h, Ne.symm h]

theorem GoMap.nodup_keys_foldl_set {V : Type} :
    ∀ (kvs : List (String × V)) (m : GoMap V), (GoMap.keys m).Nodup →
      (GoMap.keys (kvs.foldl (fun m e => GoMap.set m e.1 e.2) m)).Nodup
  | [], _, h => h
  | e :: kvs, m, h => by
    rw [List.foldl_cons]
    exact GoMap.nodup_keys_foldl_set kvs _ (GoMap.nodup_keys_set e.1 e.2 m h)

theorem GoMap.mem_foldl_set {V : Type} (x : String × V) :
    ∀ (kvs : List (String × V)) (m : GoMap V),
      x ∈ kvs.foldl (fun m e => GoMap.set m e.1 e.2) m → x ∈ kvs ∨ x ∈ m
  | [], _, h => Or.inr h
  | e :: kvs, m, h => by
    rw [List.foldl_cons] at h
    rcases GoMap.mem_foldl_set x kvs _ h with h | h
    · exact Or.inl (List.mem_cons_of_mem _ h)
    · rcases GoMap.mem_set e.1 e.2 x m h with h | h
      · exact Or.inl (by rw [h]; exact List.mem_cons_self _ _)
      · exact Or.inr h

/-- In a map (keys at most once) the last entry of a key is its first. -/
theorem GoMap.find?_reverse_of_nodup {V : Type} (k : String) :
    ∀ m : GoMap V, (GoMap.keys m).Nodup →
      m.reverse.find? (fun e => e.1 = k) = m.find? (fun e => e.1 = k)
  | [], _ => rfl
  | (a, b) :: m, h => by
    have hnd : (GoMap.keys m).Nodup := (List.nodup_cons.1 h).2
    have ha : a ∉ GoMap.keys m := (List.nodup_cons.1 h).1
    rw [List.reverse_cons, List.find?_append, GoMap.find?_reverse_of_nodup k m hnd]
    by_cases h1 : a = k
    · have hk : m.find? (fun e => e.1 = k) = none := by
        rw [List.find?_eq_none]
        intro e he
        have : e.1 ∈ GoMap.keys m := List.mem_map_of_mem Prod.fst he
        simp only [decide_eq_true_eq]
        intro hek
        exact ha (by rw [h1, ← hek]; exact this)
      simp [hk, h1]
    · cases hf : m.find? (fun e => e.1 = k) <;> simp [h1, hf]

/-! ## Aggregation: `getCrds` -/

theorem foldl_flatMap_eq {α β γ : Type} (f : α → List β) (g : γ → β → γ) :
    ∀ (l : List α) (b : γ),
      (l.flatMap f).foldl g b = l.foldl (fun b a => (f a).foldl g b) b
  | [], _ => rfl
  | a :: l, b => by
    rw [List.flatMap_cons, List.foldl_append, List.foldl_cons, foldl_flatMap_eq f g l]

theorem override_inline_eq {σ : Type} (ns : String) (crd : CustomResourceDefinition σ) :
    (if ns.length > 0 then { crd with Namespace := ns } else crd) = overrideNamespace ns crd := by
  unfold overrideNamespace
  by_cases h : ns = ""
  · subst h
    simp
  · have hl : ns.length > 0 :=
      Nat.pos_of_ne_zero (fun hl => h ((string_length_eq_zero_iff ns).1 hl))
    simp [h, hl]

theorem collectCrds_eq_foldl {σ : Type} (tbl : Char → Char) (ns : String) (p : ParseAPIs σ) :
    collectCrds tbl ns p
      = (entriesOf tbl ns (allResources p)).foldl (fun m e => GoMap.set m e.1 e.2) [] := by
  unfold collectCrds entriesOf allResources
  rw [List.foldl_map, foldl_flatMap_eq]
  congr 1
  funext crds g
  rw [foldl_flatMap_eq]
  congr 1
  funext crds v
  congr 1
  funext crds r
  simp only [override_inline_eq]

theorem collectCrds_nodup {σ : Type} (tbl : Char → Char) (ns : String) (p : ParseAPIs σ) :
    (GoMap.keys (collectCrds tbl ns p)).Nodup := by
  rw [collectCrds_eq_foldl]
  exact GoMap.nodup_keys_foldl_set _ [] List.nodup_nil

theorem collectCrds_mem {σ : Type} (tbl : Char → Char) (ns : String) (p : ParseAPIs σ)
    (e : String × CustomResourceDefinition σ) (he : e ∈ collectCrds tbl ns p) :
    ∃ r ∈ allResources p, e = (getCRDFileName tbl r, overrideNamespace ns r.CRD) := by
  rw [collectCrds_eq_foldl] at he
  rcases GoMap.mem_foldl_set e _ [] he with h | h
  · obtain ⟨r, hr, hre⟩ := List.mem_map.1 h
    exact ⟨r, hr, hre.symm⟩
  · simp at h

theorem collectCrds_get? {σ : Type} (tbl : Char → Char) (ns : String) (p : ParseAPIs σ)
    (k : String) :
    GoMap.get? (collectCrds tbl ns p) k
      = (lastWithFileName tbl k (allResources p)).map (fun r => overrideNamespace ns r.CRD) := by
  rw [collectCrds_eq_foldl, GoMap.get?_foldl_set]
  unfold entriesOf lastWithFileName
  rw [← List.map_reverse, List.find?_map]
  have hcomp : ((fun e : String × CustomResourceDefinition σ => decide (e.1 = k)) ∘
      fun r : APIResource σ => (getCRDFileName tbl r, overrideNamespace ns r.CRD))
        = fun r => decide (getCRDFileName tbl r = k) := rfl
  rw [hcomp]
  cases (allResources p).reverse.find? (fun r => decide (getCRDFileName tbl r = k)) with
  | none => simp [GoMap.get?]
  | some r => simp

theorem marshalCrds_of_ok {σ : Type}
    (marshal : CustomResourceDefinition σ → Except String String) :
    ∀ (entries : List (String × CustomResourceDefinition σ)) (result : GoMap String),
      (∀ e ∈ entries, ∃ s, marshal e.2 = Except.ok s) →
      marshalCrds marshal entries result
        = Run.done (entries.foldl (fun m e => GoMap.set m e.1 (marshalText marshal e.2)) result)
  | [], _, _ => rfl
  | (file, crd) :: rest, result, h => by
    obtain ⟨s, hs⟩ := h (file, crd) (by simp)
    have ht : marshalText marshal crd = s := by simp [marshalText, hs]
    unfold marshalCrds
    simp only [hs, List.foldl_cons, ht]
    exact marshalCrds_of_ok marshal rest _ (fun e he => h e (List.mem_cons_of_mem _ he))

theorem marshalCrds_mem {σ : Type}
    (marshal : CustomResourceDefinition σ → Except String String) :
    ∀ (entries : List (String × CustomResourceDefinition σ)) (result m : GoMap String),
      marshalCrds marshal entries result = Run.done m → ∀ x ∈ m,
        x ∈ result ∨ ∃ e ∈ entries, x.1 = e.1 ∧ marshal e.2 = Except.ok x.2
  | [], result, m, h, x, hx => by
    simp only [marshalCrds, Run.done.injEq] at h
    exact Or.inl (h ▸ hx)
  | (file, crd) :: rest, result, m, h, x, hx => by
    unfold marshalCrds at h
    cases hs : marshal crd with
    | error err => simp [hs] at h
    | ok s =>
      simp only [hs] at h
      rcases marshalCrds_mem marshal rest _ m h x hx with h1 | ⟨e, he, h1⟩
      · rcases GoMap.mem_set file s x result h1 with h2 | h2
        · exact Or.inr ⟨(file, crd), by simp, by simp [h2], by simp [h2, hs]⟩
        · exact Or.inl h2
      · exact Or.inr ⟨e, List.mem_cons_of_mem _ he, h1⟩

/-- The map that both loops of `getCrds` give when the serializer does not
fail. -/
theorem aggregate_spec {σ : Type} (tbl : Char → Char)
    (marshal : CustomResourceDefinition σ → Except String String) (ns : String)
    (p : ParseAPIs σ)
    (hm : ∀ r ∈ allResources p, ∃ s, marshal (overrideNamespace ns r.CRD) = Except.ok s) :
    ∃ m, marshalCrds marshal (collectCrds tbl ns p) [] = Run.done m
      ∧ (GoMap.keys m).Nodup
      ∧ (∀ k, k ∈ GoMap.keys m ↔ ∃ r ∈ allResources p, getCRDFileName tbl r = k)
      ∧ (∀ k, GoMap.get? m k = (lastWithFileName tbl k (allResources p)).bind
          (fun r => (marshal (overrideNamespace ns r.CRD)).toOption)) := by
  have hok : ∀ e ∈ collectCrds tbl ns p, ∃ s, marshal e.2 = Except.ok s := by
    intro e he
    obtain ⟨r, hr, hre⟩ := collectCrds_mem tbl ns p e he
    rw [hre]
    exact hm r hr
  have hget : ∀ k, GoMap.get?
      ((collectCrds tbl ns p).foldl (fun m e => GoMap.set m e.1 (marshalText marshal e.2)) []) k
        = (lastWithFileName tbl k (allResources p)).bind
            (fun r => (marshal (overrideNamespace ns r.CRD)).toOption) := by
    intro k
    have hfold : (collectCrds tbl ns p).foldl
          (fun m e => GoMap.set m e.1 (marshalText marshal e.2)) []
        = ((collectCrds tbl ns p).map (fun e => (e.1, marshalText marshal e.2))).foldl
          (fun m e => GoMap.set m e.1 e.2) [] := by
      rw [List.foldl_map]
    rw [hfold, GoMap.get?_foldl_set, ← List.map_reverse, List.find?_map]
    have hcomp : ((fun e : String × String => decide (e.1 = k)) ∘
        fun e : String × CustomResourceDefinition σ => (e.1, marshalText marshal e.2))
          = fun e => decide (e.1 = k) := rfl
    rw [hcomp, GoMap.find?_reverse_of_nodup k _ (collectCrds_nodup tbl ns p)]
    have hc := collectCrds_get? tbl ns p k
    unfold GoMap.get? at hc
    cases hf : (collectCrds tbl ns p).find? (fun e => e.1 = k) with
    | none =>
      rw [hf] at hc
      cases hl : lastWithFileName tbl k (allResources p) with
      | none => simp [GoMap.get?]
      | some r => rw [hl] at hc; simp at hc
    | some e =>
      rw [hf] at hc
      cases hl : lastWithFileName tbl k (allResources p) with
      | none => rw [hl] at hc; simp at hc
      | some r =>
        rw [hl] at hc
        simp only [Option.map_some', Option.some.injEq] at hc
        have hr : r ∈ allResources p := by
          have := List.mem_of_find?_eq_some hl
          simpa using this
        obtain ⟨s, hs⟩ := hm r hr
        simp [GoMap.get?, hc, marshalText, hs, Except.toOption]
  refine ⟨_, marshalCrds_of_ok marshal _ [] hok, ?_, ?_, hget⟩
  · have hfold : (collectCrds tbl ns p).foldl
          (fun m e => GoMap.set m e.1 (marshalText marshal e.2)) []
        = ((collectCrds tbl ns p).map (fun e => (e.1, marshalText marshal e.2))).foldl
          (fun m e => GoMap.set m e.1 e.2) [] := by
      rw [List.foldl_map]
    rw [hfold]
    exact GoMap.nodup_keys_foldl_set _ [] List.nodup_nil
  · intro k
    rw [GoMap.mem_keys_iff, hget]
    constructor
    · intro h
      cases hl : lastWithFileName tbl k (allResources p) with
      | none => rw [hl] at h; simp at h
      | some r =>
        have hmem := List.mem_of_find?_eq_some hl
        have hp := List.find?_some hl
        exact ⟨r, by simpa using hmem, by simpa using hp⟩
    · rintro ⟨r, hr, hk⟩
      have hsome : (lastWithFileName tbl k (allResources p)).isSome := by
        unfold lastWithFileName
        rw [List.find?_isSome]
        exact ⟨r, by simpa using hr, by simpa using hk⟩
      cases hl : lastWithFileName tbl k (allResources p) with
      | none => rw [hl] at hsome; simp at hsome
      | some r' =>
        have hr' : r' ∈ allResources p := by
          have := List.mem_of_find?_eq_some hl
          simpa using this
        obtain ⟨s, hs⟩ := hm r' hr'
        simp [hs, Except.toOption]

/-- C5: `getCrds` aggregates, for every resource, a CRD under its file name, and
every aggregated CRD is the CRD of a resource with only the namespace changed:
the rest is that of the source, and the namespace is the override when it is
non-empty and the source's own otherwise.  The collected map holds under each
file name just that CRD of the last resource with the name and nothing else;
and when the serializer does not fail, both methods return the map of the
serializations of these CRDs. -/
theorem getCrds_namespace_override {σ : Type} (tbl : Char → Char)
    (marshal : CustomResourceDefinition σ → Except String String)
    (c : CRDGenerator) (g : Generator) (p : ParseAPIs σ) :
    (∀ ns k, GoMap.get? (collectCrds tbl ns p) k
        = (lastWithFileName tbl k (allResources p)).map
            (fun r => ⟨if ns = "" then r.CRD.Namespace else ns, r.CRD.rest⟩))
    ∧ (∀ ns, ∀ r ∈ allResources p, ∃ r' ∈ allResources p,
        getCRDFileName tbl r' = getCRDFileName tbl r
          ∧ GoMap.get? (collectCrds tbl ns p) (getCRDFileName tbl r)
              = some ⟨if ns = "" then r'.CRD.Namespace else ns, r'.CRD.rest⟩)
    ∧ (∀ ns, ∀ e ∈ collectCrds tbl ns p, ∃ r ∈ allResources p,
        e.1 = getCRDFileName tbl r ∧ e.2.rest = r.CRD.rest
          ∧ e.2.Namespace = (if ns = "" then r.CRD.Namespace else ns))
    ∧ (∀ m, CRDGenerator.getCrds tbl marshal c p = Run.done m → ∀ x ∈ m,
        ∃ r ∈ allResources p, x.1 = getCRDFileName tbl r
          ∧ marshal ⟨if c.Namespace = "" then r.CRD.Namespace else c.Namespace, r.CRD.rest⟩
              = Except.ok x.2)
    ∧ (∀ m, Generator.getCrds tbl marshal g p = Run.done m → ∀ x ∈ m,
        ∃ r ∈ allResources p, x.1 = getCRDFileName tbl r
          ∧ marshal ⟨if g.Namespace = "" then r.CRD.Namespace else g.Namespace, r.CRD.rest⟩
              = Except.ok x.2)
    ∧ ((∀ r ∈ allResources p, ∃ s,
          marshal ⟨if c.Namespace = "" then r.CRD.Namespace else c.Namespace, r.CRD.rest⟩
            = Except.ok s) →
        ∃ m, CRDGenerator.getCrds tbl marshal c p = Run.done m
          ∧ ∀ k, GoMap.get? m k = (lastWithFileName tbl k (allResources p)).bind
              (fun r => (marshal ⟨if c.Namespace = "" then r.CRD.Namespace else c.Namespace,
                r.CRD.rest⟩).toOption))
    ∧ ((∀ r ∈ allResources p, ∃ s,
          marshal ⟨if g.Namespace = "" then r.CRD.Namespace else g.Namespace, r.CRD.rest⟩
            = Except.ok s) →
        ∃ m, Generator.getCrds tbl marshal g p = Run.done m
          ∧ ∀ k, GoMap.get? m k = (lastWithFileName tbl k (allResources p)).bind
              (fun r => (marshal ⟨if g.Namespace = "" then r.CRD.Namespace else g.Namespace,
                r.CRD.rest⟩).toOption)) := by
  have key : ∀ ns m, marshalCrds marshal (collectCrds tbl ns p) [] = Run.done m → ∀ x ∈ m,
      ∃ r ∈ allResources p, x.1 = getCRDFileName tbl r
        ∧ marshal ⟨if ns = "" then r.CRD.Namespace else ns, r.CRD.rest⟩ = Except.ok x.2 := by
    intro ns m hm x hx
    rcases marshalCrds_mem marshal _ [] m hm x hx with h | ⟨e, he, h1, h2⟩
    · simp at h
    · obtain ⟨r, hr, hre⟩ := collectCrds_mem tbl ns p e he
      subst hre
      exact ⟨r, hr, h1, h2⟩
  have full : ∀ ns, (∀ r ∈ allResources p, ∃ s,
        marshal ⟨if ns = "" then r.CRD.Namespace else ns, r.CRD.rest⟩ = Except.ok s) →
      ∃ m, marshalCrds marshal (collectCrds tbl ns p) [] = Run.done m
        ∧ ∀ k, GoMap.get? m k = (lastWithFileName tbl k (allResources p)).bind
            (fun r => (marshal ⟨if ns = "" then r.CRD.Namespace else ns,
              r.CRD.rest⟩).toOption) := by
    intro ns hm
    obtain ⟨m, h1, _, _, h4⟩ := aggregate_spec tbl marshal ns p hm
    exact ⟨m, h1, h4⟩
  refine ⟨?_, ?_, ?_, key c.Namespace, key g.Namespace, full c.Namespace, full g.Namespace⟩
  · intro ns k
    exact collectCrds_get? tbl ns p k
  · intro ns r hr
    have hget := collectCrds_get? tbl ns p (getCRDFileName tbl r)
    cases hl : lastWithFileName tbl (getCRDFileName tbl r) (allResources p) with
    | none =>
      unfold lastWithFileName at hl
      rw [List.find?_eq_none] at hl
      exact absurd (hl r (by simpa using hr)) (by simp)
    | some r' =>
      have hmem := List.mem_of_find?_eq_some hl
      have hp := List.find?_some hl
      rw [hl] at hget
      exact ⟨r', by simpa using hmem, by simpa using hp, hget⟩
  · intro ns e he
    obtain ⟨r, hr, hre⟩ := collectCrds_mem tbl ns p e he
    subst hre
    exact ⟨r, hr, rfl, rfl, rfl⟩

/-- Witness of C5: a CRD without namespace is in the returned map with
`team-a` under that override, in both packages, and stays without namespace
when there is no override. -/
theorem getCrds_namespace_override_witness :
    (∃ m, Generator.getCrds (fun c => c) marshalBar ⟨"", "", "team-a", true⟩ apisWidget
        = Run.done m
      ∧ ∀ k, GoMap.get? m k = (lastWithFileName (fun c => c) k (allResources apisWidget)).bind
          (fun r => (marshalBar ⟨if ("team-a" : String) = "" then r.CRD.Namespace else "team-a",
            r.CRD.rest⟩).toOption))
      ∧ Generator.getCrds (fun c => c) marshalBar ⟨"", "", "team-a", true⟩ apisWidget
          = Run.done [("apps_v1_widget.yaml", "team-a|spec")]
      ∧ CRDGenerator.getCrds (fun c => c) marshalBar ⟨"", "team-a", true⟩ apisWidget
          = Run.done [("apps_v1_widget.yaml", "team-a|spec")]
      ∧ collectCrds (fun c => c) "team-a" apisWidget
          = [("apps_v1_widget.yaml", ⟨"team-a", "spec"⟩)]
      ∧ collectCrds (fun c => c) "" apisWidget = [("apps_v1_widget.yaml", ⟨"", "spec"⟩)] :=
  ⟨(getCrds_namespace_override (fun c => c) marshalBar ⟨"", "team-a", true⟩
      ⟨"", "", "team-a", true⟩ apisWidget).2.2.2.2.2.2 (fun r _ => ⟨_, rfl⟩),
   by decide, by decide, by decide, by decide⟩

/-- C6: when the serializer does not fail, `getCrds` returns a map whose keys
are exactly the file names of the resources, each once, and in which every key
has the serialization of the last resource in traversal order (group, then
version, then resource) with that file name, after the namespace override.
Two resources with one file name raise no error: the later one wins. -/
theorem getCrds_last_write_wins {σ : Type} (tbl : Char → Char)
    (marshal : CustomResourceDefinition σ → Except String String)
    (c : CRDGenerator) (p : ParseAPIs σ)
    (hm : ∀ r ∈ allResources p,
      ∃ s, marshal (overrideNamespace c.Namespace r.CRD) = Except.ok s) :
    ∃ m, CRDGenerator.getCrds tbl marshal c p = Run.done m
      ∧ (GoMap.keys m).Nodup
      ∧ (∀ k, k ∈ GoMap.keys m ↔ ∃ r ∈ allResources p, getCRDFileName tbl r = k)
      ∧ (∀ k, GoMap.get? m k = (lastWithFileName tbl k (allResources p)).bind
          (fun r => (marshal (overrideNamespace c.Namespace r.CRD)).toOption)) :=
  aggregate_spec tbl marshal c.Namespace p hm

/-- Witness of C6: of `Widget` and `widget`, which share a file name, the
second is in the map. -/
theorem getCrds_last_write_wins_witness :
    (∃ m, CRDGenerator.getCrds (fun c => c) marshalBar ⟨"", "", true⟩ apisCollide = Run.done m
      ∧ (GoMap.keys m).Nodup
      ∧ (∀ k, k ∈ GoMap.keys m ↔
          ∃ r ∈ allResources apisCollide, getCRDFileName (fun c => c) r = k)
      ∧ (∀ k, GoMap.get? m k = (lastWithFileName (fun c => c) k (allResources apisCollide)).bind
          (fun r => (marshalBar (overrideNamespace "" r.CRD)).toOption)))
      ∧ CRDGenerator.getCrds (fun c => c) marshalBar ⟨"", "", true⟩ apisCollide
          = Run.done [("apps_v1_widget.yaml", "|second")] :=
  ⟨getCrds_last_write_wins (fun c => c) marshalBar ⟨"", "", true⟩ apisCollide
      (fun r _ => ⟨_, rfl⟩),
   by decide⟩

/-! ## File names -/

theorem getCRDFileName_data {σ : Type} (tbl : Char → Char) (r : APIResource σ) :
    (getCRDFileName tbl r).data =
      r.Group.data ++ '_' :: (r.Version.data ++ '_' ::
        ((r.Kind.data.map (unicodeToLower tbl)) ++ ".yaml".data)) := by
  simp [getCRDFileName, stringsJoin, joinChars, stringsToLower, String.data_append]

/-- On ASCII text the Unicode case tables play no part in `strings.ToLower`. -/
theorem map_unicodeToLower_ascii (tbl : Char → Char) (cs : List Char)
    (h : ∀ c ∈ cs, c.toNat ≤ 127) :
    cs.map (unicodeToLower tbl) = cs.map (unicodeToLower (fun c => c)) := by
  apply List.map_congr_left
  intro c hc
  simp [unicodeToLower, h c hc]

/-- Two texts cut at the first occurrence of a separator are equal only when
both parts are. -/
theorem append_sep_inj {sep : Char} :
    ∀ (a b x y : List Char), sep ∉ a → sep ∉ b → a ++ sep :: x = b ++ sep :: y →
      a = b ∧ x = y
  | [], [], _, _, _, _, h => by simpa using h
  | [], c :: b, _, _, _, hb, h => by
    simp only [List.nil_append, List.cons_append, List.cons.injEq] at h
    exact absurd h.1 (by intro hc; exact hb (by simp [hc]))
  | c :: a, [], _, _, ha, _, h => by
    simp only [List.nil_append, List.cons_append, List.cons.injEq] at h
    exact absurd h.1.symm (by intro hc; exact ha (by simp [hc]))
  | c :: a, d :: b, x, y, ha, hb, h => by
    simp only [List.cons_append, List.cons.injEq] at h
    have ha' : sep ∉ a := fun hm => ha (List.mem_cons_of_mem _ hm)
    have hb' : sep ∉ b := fun hm => hb (List.mem_cons_of_mem _ hm)
    obtain ⟨h1, h2⟩ := append_sep_inj a b x y ha' hb' h.2
    exact ⟨by rw [h.1, h1], h2⟩

/-- C1: for every resource, `getCRDFileName` (the same text in both packages)
returns group, `_`, version, `_`, the lower-cased kind and `.yaml`, where the
lower-cased kind has each rune of the kind mapped by `unicode.ToLower`; group
`apps`, version `v1`, kind `Widget` give `apps_v1_widget.yaml`. -/
theorem getCRDFileName_spec {σ : Type} (tbl : Char → Char) (r : APIResource σ) :
    getCRDFileName tbl r
        = r.Group ++ "_" ++ r.Version ++ "_" ++ stringsToLower tbl r.Kind ++ ".yaml"
      ∧ (stringsToLower tbl r.Kind).data = r.Kind.data.map (unicodeToLower tbl)
      ∧ (∀ crd : CustomResourceDefinition σ,
          getCRDFileName tbl ⟨"apps", "v1", "Widget", crd⟩ = "apps_v1_widget.yaml") := by
  refine ⟨?_, rfl, ?_⟩
  · apply String.ext
    rw [getCRDFileName_data]
    simp [String.data_append, stringsToLower]
  · intro crd
    apply String.ext
    rw [getCRDFileName_data]
    show "apps".data ++ '_' :: ("v1".data ++ '_' ::
      ("Widget".data.map (unicodeToLower tbl) ++ ".yaml".data)) = "apps_v1_widget.yaml".data
    rw [map_unicodeToLower_ascii tbl "Widget".data (by decide)]
    decide

/-- C10: for resources whose group and version have no `_`, the file names are
equal exactly when the groups are equal, the versions are equal and the kinds
are equal after lower-casing. -/
theorem getCRDFileName_eq_iff {σ : Type} (tbl : Char → Char) (r1 r2 : APIResource σ)
    (hg1 : '_' ∉ r1.Group.data) (hv1 : '_' ∉ r1.Version.data)
    (hg2 : '_' ∉ r2.Group.data) (hv2 : '_' ∉ r2.Version.data) :
    getCRDFileName tbl r1 = getCRDFileName tbl r2 ↔
      r1.Group = r2.Group ∧ r1.Version = r2.Version ∧
        stringsToLower tbl r1.Kind = stringsToLower tbl r2.Kind := by
  constructor
  · intro h
    have hd := congrArg String.data h
    rw [getCRDFileName_data, getCRDFileName_data] at hd
    obtain ⟨hG, hrest⟩ := append_sep_inj _ _ _ _ hg1 hg2 hd
    obtain ⟨hV, hK⟩ := append_sep_inj _ _ _ _ hv1 hv2 hrest
    refine ⟨String.ext hG, String.ext hV, String.ext ?_⟩
    exact List.append_cancel_right hK
  · rintro ⟨hG, hV, hK⟩
    apply String.ext
    rw [getCRDFileName_data, getCRDFileName_data, hG, hV]
    have hK' := congrArg String.data hK
    simp only [stringsToLower] at hK'
    rw [hK']

/-- Witness of C10: `Widget` and `widget` in group `apps`, version `v1` are
distinct triples with one file name. -/
theorem getCRDFileName_eq_iff_witness :
    (⟨"apps", "v1", "Widget", ⟨"", ()⟩⟩ : APIResource Unit).Kind
        ≠ (⟨"apps", "v1", "widget", ⟨"", ()⟩⟩ : APIResource Unit).Kind
      ∧ getCRDFileName (fun c => c) (⟨"apps", "v1", "Widget", ⟨"", ()⟩⟩ : APIResource Unit)
        = getCRDFileName (fun c => c) (⟨"apps", "v1", "widget", ⟨"", ()⟩⟩ : APIResource Unit) :=
  ⟨by decide,
   (getCRDFileName_eq_iff (fun c => c) ⟨"apps", "v1", "Widget", ⟨"", ()⟩⟩
      ⟨"apps", "v1", "widget", ⟨"", ()⟩⟩ (by decide) (by decide) (by decide) (by decide)).2
      ⟨rfl, rfl, by decide⟩⟩

end CRDGen
